import Mathlib

/-!
Verification of the versioned incremental indexing engine of `webdb`
(`src/lib/indexer.js`).  The JavaScript source is shallowly embedded as pure
Lean functions: the mutable stores (per-table level stores and the index-meta
store) become an explicit `DBState` threaded through the operations, fallible
external calls (`archive.readFile`, `JSON.parse`, `level.put`/`level.del`,
schema validators and preprocessors) become `Except`-valued functions, and
emitted events become explicit `Signal` values.  Store writes are additionally
recorded in an operation log so that ordering properties (the watermark is
written once, after all per-update table writes) are statable.
-/

/-- Errors thrown by external collaborators (read/parse/store/schema calls). -/
abbrev Err := String

/-- The parsed JSON record payload, kept abstract as a string. -/
abbrev Rec := String

/-- One entry of an archive's history: `{path, type, version}`.  The `type`
field carries the raw string the archive produces (the code dispatches on the
literal string comparison `update.type === 'del'`). -/
structure Update where
  path : String
  type : String
  version : Nat
deriving Repr, DecidableEq

/-- The value stored in a table's level store by `readAndIndexFile`:
`{url, origin, indexedAt, record}`. -/
structure StoredRecord where
  url : String
  origin : String
  indexedAt : Nat
  record : Rec
deriving Repr, DecidableEq

/-- A persisted index-meta record `{url, version, isWritable, localPath}`;
`version` is the watermark. -/
structure IndexMeta where
  url : String := ""
  version : Nat := 0
  isWritable : Bool := false
  localPath : Option String := none
deriving Repr, DecidableEq

/-- An archive handle, as consumed by the indexer: the identifying `url`, the
current version reported by `getInfo()`, the `isOwner` flag, the history of
versioned changes, and the `readFile` operation (which may fail). -/
structure Archive where
  url : String
  version : Nat
  isOwner : Bool := false
  localPath : Option String := none
  history : List Update := []
  readFile : String → Except Err String := fun _ => Except.error "NotFound"

/-- A table, as consumed by the indexer: its name, the `isRecordFile` path
predicate, the optional schema validator and preprocessor (either of which may
throw, hence `Except`), the `listRecordFiles` enumeration used by
`unindexArchive`, and `levelFail`, which models the table's level store
throwing on a put/del at a given key (`none` means the store call succeeds). -/
structure Table where
  name : String
  isRecordFile : String → Bool
  validator : Option (Rec → Except Err Bool) := none
  preprocess : Option (Rec → Except Err (Option Rec)) := none
  listRecordFiles : Archive → List String := fun _ => []
  levelFail : String → Option Err := fun _ => none

/-- The immutable configuration of the db: registered tables, the combined
`_tableFilePatterns` matcher used by the history scan (`anymatch`), the JSON
parser, and the open/level flags read by `indexArchive`'s sanity checks. -/
structure DB where
  tables : List Table
  tableFilePatterns : String → Bool := fun _ => false
  parse : String → Except Err Rec := fun s => Except.ok s
  isOpen : Bool := true
  isBeingOpened : Bool := false
  hasLevel : Bool := true

/-- One persisted-store operation, recorded in the state's log:  a table-store
put/del, or an index-meta put/del. -/
inductive StoreOp
  | tPut (tableName key : String) (value : StoredRecord)
  | tDel (tableName key : String)
  | metaPut (url : String) (version : Nat)
  | metaDel (url : String)
deriving Repr, DecidableEq

/-- Whether an operation targets a table store (as opposed to the meta store). -/
def StoreOp.isTableOp : StoreOp → Bool
  | .tPut _ _ _ => true
  | .tDel _ _ => true
  | _ => false

/-- Signals emitted by the indexing path (`db.emit` / `db[table].emit`). -/
inductive Signal
  | indexUpdated (tableName archiveUrl : String) (version : Nat)
  | indexesUpdated (archiveUrl : String) (version : Nat)
  | indexError (fileUrl : String) (error : Err)
deriving Repr, DecidableEq

/-- Association-list lookup (first match wins), used for every keyed store. -/
def alGet {α : Type} : List (String × α) → String → Option α
  | [], _ => none
  | (k, v) :: rest, key => if k = key then some v else alGet rest key

/-- Association-list upsert: replace the entry at the key when present
(keeping its position), append otherwise — the JS-object / level-put update
semantics. -/
def alUpsert {α : Type} (m : List (String × α)) (k : String) (v : α) :
    List (String × α) :=
  if (alGet m k).isSome then
    m.map (fun p => if p.1 = k then (k, v) else p)
  else m ++ [(k, v)]

/-- Association-list removal of a key (level `del`). -/
def alRemove {α : Type} (m : List (String × α)) (k : String) :
    List (String × α) :=
  m.filter (fun p => p.1 ≠ k)

/-- The mutable state threaded through the indexer: the per-table level stores
(keyed by table name), the index-meta store (keyed by archive url), the
in-memory managed-archive map `db._archives` (its key set), the set of
archives with an attached file-activity watcher (`archive.fileEvents`), and
the log of persisted-store operations performed so far. -/
structure DBState where
  stores : List (String × List (String × StoredRecord)) := []
  indexMeta : List (String × IndexMeta) := []
  archives : List String := []
  watched : List String := []
  log : List StoreOp := []

/-- Read one stored record out of a table's store. -/
def DBState.getRecord (st : DBState) (tableName key : String) :
    Option StoredRecord :=
  alGet ((alGet st.stores tableName).getD []) key

/-- `table.level.put(key, value)`: fails when the store throws at this key,
otherwise writes the record and logs the operation. -/
def DBState.tablePut (st : DBState) (t : Table) (key : String)
    (v : StoredRecord) : Except Err DBState :=
  match t.levelFail key with
  | some e => Except.error e
  | none => Except.ok { st with
      stores := alUpsert st.stores t.name
        (alUpsert ((alGet st.stores t.name).getD []) key v),
      log := st.log ++ [StoreOp.tPut t.name key v] }

/-- `table.level.del(key)`: fails when the store throws at this key, otherwise
removes the key (removing an absent key succeeds) and logs the operation. -/
def DBState.tableDel (st : DBState) (t : Table) (key : String) :
    Except Err DBState :=
  match t.levelFail key with
  | some e => Except.error e
  | none => Except.ok { st with
      stores := alUpsert st.stores t.name
        (alRemove ((alGet st.stores t.name).getD []) key),
      log := st.log ++ [StoreOp.tDel t.name key] }

/-- The watermark the indexer reads for an archive: the stored meta's
`version`, defaulting to `0` when absent (`indexMeta || {version: 0}`). -/
def wmOf (st : DBState) (url : String) : Nat :=
  ((alGet st.indexMeta url).getD { url := url, version := 0 }).version

/-- Modelled from the spec: `LevelUtil.update` (from `lib/util-level`, not
under `src/`) merges the given fields into the existing meta record and
persists it; here `indexArchive` passes `{url, version}`, so the stored meta
keeps its other fields and records the new watermark. -/
def metaUpdate (st : DBState) (url : String) (version : Nat) : DBState :=
  let old := (alGet st.indexMeta url).getD {}
  { st with
    indexMeta := alUpsert st.indexMeta url { old with url := url, version := version },
    log := st.log ++ [StoreOp.metaPut url version] }

/-- `readAndIndexFile`, the part inside its `try`: read the file, parse it,
find the first table whose `isRecordFile` matches, validate, preprocess
(a defined non-empty — truthy — result replaces the record), then put (valid)
or del (invalid) the entry at `archive.url + filepath`.  Any error escapes as
`Except.error`. -/
def readAndIndexFileInner (db : DB) (archive : Archive) (now : Nat)
    (filepath : String) (st : DBState) : Except Err (DBState × Option String) :=
  match archive.readFile filepath with
  | Except.error e => Except.error e
  | Except.ok raw =>
    match db.parse raw with
    | Except.error e => Except.error e
    | Except.ok record =>
      match db.tables.find? (fun t => t.isRecordFile filepath) with
      | none => Except.ok (st, none)
      | some table =>
        let fileUrl := archive.url ++ filepath
        match (match table.validator with
               | none => Except.ok true
               | some v => v record) with
        | Except.error e => Except.error e
        | Except.ok isValid =>
          if isValid then
            match (match table.preprocess with
                   | none => Except.ok record
                   | some pp =>
                     match pp record with
                     | Except.error e => Except.error e
                     | Except.ok newRecord => Except.ok (newRecord.getD record)) with
            | Except.error e => Except.error e
            | Except.ok record2 =>
              match st.tablePut table fileUrl
                  { url := fileUrl, origin := archive.url,
                    indexedAt := now, record := record2 } with
              | Except.error e => Except.error e
              | Except.ok st2 => Except.ok (st2, some table.name)
          else
            match st.tableDel table fileUrl with
            | Except.error e => Except.error e
            | Except.ok st2 => Except.ok (st2, some table.name)

/-- `readAndIndexFile`: the `catch` around the body emits a non-fatal
`index-error` signal carrying the file url and the error, leaves the state
untouched (the only state mutation is the final put/del, which did not
happen), and returns `false` (modelled `none`).  The `archiveMeta` argument is
passed by the caller but unused, as in the source. -/
def readAndIndexFile (db : DB) (archive : Archive) (_archiveMeta : Archive)
    (now : Nat) (filepath : String) (st : DBState) :
    DBState × List Signal × Option String :=
  match readAndIndexFileInner db archive now filepath st with
  | Except.ok (st2, r) => (st2, [], r)
  | Except.error e => (st, [Signal.indexError (archive.url ++ filepath) e], none)

/-- `unindexFile`, the part inside its `try`: delete the entry at
`archive.url + filepath` from the first matching table. -/
def unindexFileInner (db : DB) (archive : Archive) (filepath : String)
    (st : DBState) : Except Err (DBState × Option String) :=
  match db.tables.find? (fun t => t.isRecordFile filepath) with
  | none => Except.ok (st, none)
  | some table =>
    match st.tableDel table (archive.url ++ filepath) with
    | Except.error e => Except.error e
    | Except.ok st2 => Except.ok (st2, some table.name)

/-- `unindexFile`: errors are logged (`console.log`) and swallowed — no signal
is emitted — and `false` (modelled `none`) is returned. -/
def unindexFile (db : DB) (archive : Archive) (filepath : String)
    (st : DBState) : DBState × Option String :=
  match unindexFileInner db archive filepath st with
  | Except.ok r => r
  | Except.error _ => (st, none)

/-- Dispatch of one update inside `applyUpdates`: `update.type === 'del'`
routes to `unindexFile`, everything else to `readAndIndexFile`. -/
def applyUpdate (db : DB) (archive : Archive) (archiveMeta : Archive)
    (now : Nat) (u : Update) (st : DBState) :
    DBState × List Signal × Option String :=
  if u.type = "del" then
    let r := unindexFile db archive u.path st
    (r.1, [], r.2)
  else
    readAndIndexFile db archive archiveMeta now u.path st

/-- `applyUpdates`: apply every retained update (the values of the dedup map,
in key-insertion order); collect every dispatch result. -/
def applyUpdates (db : DB) (archive : Archive) (archiveMeta : Archive)
    (now : Nat) (updates : List (String × Update)) (st : DBState) :
    DBState × List Signal × List (Option String) :=
  match updates with
  | [] => (st, [], [])
  | (_, u) :: rest =>
    let r1 := applyUpdate db archive archiveMeta now u st
    let r2 := applyUpdates db archive archiveMeta now rest r1.1
    (r2.1, r1.2.1 ++ r2.2.1, r1.2.2 :: r2.2.2)

/-- `archive.history({start, end})`: the history entries whose version lies in
the half-open range `[start, end)`, in history order. -/
def historySlice (archive : Archive) (start stop : Nat) : List Update :=
  archive.history.filter (fun u => start ≤ u.version ∧ u.version < stop)

/-- One step of the history scan: keep the update when its path matches some
table file pattern, overwriting any earlier update kept for the same path. -/
def scanStep (db : DB) (m : List (String × Update)) (u : Update) :
    List (String × Update) :=
  if db.tableFilePatterns u.path then alUpsert m u.path u else m

/-- `scanArchiveHistoryForUpdates`: fold the sliced history into a map from
path to the latest matching update for that path. -/
def scanArchiveHistoryForUpdates (db : DB) (archive : Archive)
    (start stop : Nat) : List (String × Update) :=
  (historySlice archive start stop).foldl (scanStep db) []

/-- Deduplicate the list of touched table names (`new Set(results)`), keeping
first-occurrence order and dropping the falsy `false` results. -/
def dedupAcc (seen : List String) : List (Option String) → List String
  | [] => []
  | none :: rest => dedupAcc seen rest
  | some n :: rest =>
    if seen.contains n then dedupAcc seen rest
    else n :: dedupAcc (n :: seen) rest

/-- `indexArchive`: sanity checks, fast path when the watermark already covers
the archive's current version, otherwise scan the range
`(watermark, currentVersion]`, apply the updates, persist the new watermark
`= currentVersion`, and emit the per-table and global update signals. -/
def indexArchive (db : DB) (archive : Archive) (now : Nat) (st : DBState) :
    DBState × List Signal :=
  if ¬db.isOpen ∧ ¬db.isBeingOpened then (st, [])
  else if ¬db.hasLevel then (st, [])
  else
    let wm := wmOf st archive.url
    if archive.version ≤ wm then (st, [])
    else
      let updates := scanArchiveHistoryForUpdates db archive (wm + 1) (archive.version + 1)
      let r := applyUpdates db archive archive now updates st
      let st2 := metaUpdate r.1 archive.url archive.version
      let touched := dedupAcc [] r.2.2
      (st2, r.2.1
        ++ touched.map (fun n => Signal.indexUpdated n archive.url archive.version)
        ++ [Signal.indexesUpdated archive.url archive.version])

/-- `watchArchive`: no-op (with a warning) when a watcher is already attached,
otherwise attach the file-activity watcher. -/
def watchArchive (_db : DB) (archive : Archive) (st : DBState) : DBState :=
  if st.watched.contains archive.url then st
  else { st with watched := st.watched ++ [archive.url] }

/-- `unwatchArchive`: detach the watcher when present; idempotent no-op
otherwise. -/
def unwatchArchive (_db : DB) (archive : Archive) (st : DBState) : DBState :=
  { st with watched := st.watched.filter (fun u => u ≠ archive.url) }

/-- The meta-store write performed at the start of `addArchive`: persist a
fresh meta record `{url, version: 0, isWritable, localPath}` for the archive
(`isWritable` derived from the fetched info's `isOwner`). -/
def metaInit (st : DBState) (archive : Archive) : DBState :=
  let meta : IndexMeta :=
    { url := archive.url, version := 0,
      isWritable := archive.isOwner, localPath := archive.localPath }
  { st with indexMeta := alUpsert st.indexMeta archive.url meta,
            log := st.log ++ [StoreOp.metaPut archive.url 0] }

/-- `addArchive`: fetch the archive info, persist a fresh meta record with
watermark 0, then run `indexArchive` and attach the watcher. -/
def addArchive (db : DB) (archive : Archive) (now : Nat) (st : DBState) :
    DBState × List Signal :=
  let r := indexArchive db archive now (metaInit st archive)
  (watchArchive db archive r.1, r.2)

/-- `scanArchiveForRecords`: every table's currently-matching record urls for
this archive, flattened in table order. -/
def scanArchiveForRecords (db : DB) (archive : Archive) :
    List (Table × String) :=
  (db.tables.map (fun t => (t.listRecordFiles archive).map (fun u => (t, u)))).flatten

/-- Delete a batch of `(table, recordUrl)` matches from their table stores
(`Promise.all(recordMatches.map(match => match.table.level.del(...)))`),
stopping at the first store error. -/
def delAll (l : List (Table × String)) (st : DBState) : Except Err DBState :=
  match l with
  | [] => Except.ok st
  | m :: rest =>
    match st.tableDel m.1 m.2 with
    | Except.error e => Except.error e
    | Except.ok st2 => delAll rest st2

/-- `unindexArchive`: delete every matching stored record, then delete the
archive's meta entry.  A store error propagates (there is no catch here). -/
def unindexArchive (db : DB) (archive : Archive) (st : DBState) :
    Except Err DBState :=
  match delAll (scanArchiveForRecords db archive) st with
  | Except.error e => Except.error e
  | Except.ok st2 => Except.ok { st2 with
      indexMeta := alRemove st2.indexMeta archive.url,
      log := st2.log ++ [StoreOp.metaDel archive.url] }

/-- `removeArchive`: unindex the archive, then detach its watcher.  The
in-memory managed-archive map `db._archives` is not touched. -/
def removeArchive (db : DB) (archive : Archive) (st : DBState) :
    Except Err DBState :=
  match unindexArchive db archive st with
  | Except.error e => Except.error e
  | Except.ok st2 => Except.ok (unwatchArchive db archive st2)

/-!  The resilience loop (`onFailInitialIndex`).  `indexArchive`'s outcome at
each retry, and the `db.isOpen` / `archive.url in db._archives` checks
observed at each wake-up, are external to the loop; they are supplied as a
trace of `Tick`s, one per iteration the loop gets to run.  The loop's visible
behaviour — the 30-second waits, the emitted lifecycle signals, and the
watcher attachment — is returned as a list of `LoopEvent`s, together with
whether the loop has exited or is still running (trace exhausted). -/

/-- A thrown JS error, dispatched on by its `name` (`'TimeoutError'`). -/
structure JsError where
  name : String
  message : String := ""
deriving Repr, DecidableEq

/-- The outcome of one retried `indexArchive` call. -/
inductive IndexOutcome
  | ok
  | err (e : JsError)
deriving Repr, DecidableEq

/-- What one wake-up of the retry loop observes: the system-open flag, whether
the archive is still in `db._archives`, and the retry's outcome. -/
structure Tick where
  isOpen : Bool
  managed : Bool
  outcome : IndexOutcome
deriving Repr, DecidableEq

/-- Externally visible actions of the resilience loop. -/
inductive LoopEvent
  | wait (ms : Nat)
  | sourceMissing
  | sourceFound
  | attachWatcher
  | sourceError (e : JsError)
deriving Repr, DecidableEq

/-- Whether the loop exited, or is still looping when the trace ran out. -/
inductive LoopStatus
  | exited
  | running
deriving Repr, DecidableEq

/-- The retry loop body: each iteration first waits 30 seconds, then exits
silently when the system is closed or the archive is no longer managed;
otherwise it retries `indexArchive` — success breaks out, emits
`source-found` and attaches the watcher; a timeout error loops again; any
other error aborts silently. -/
def retryLoop : List Tick → List LoopEvent × LoopStatus
  | [] => ([], LoopStatus.running)
  | t :: ts =>
    if !t.isOpen || !t.managed then ([LoopEvent.wait 30000], LoopStatus.exited)
    else
      match t.outcome with
      | IndexOutcome.ok =>
        ([LoopEvent.wait 30000, LoopEvent.sourceFound, LoopEvent.attachWatcher],
         LoopStatus.exited)
      | IndexOutcome.err e =>
        if e.name = "TimeoutError" then
          let r := retryLoop ts
          (LoopEvent.wait 30000 :: r.1, r.2)
        else ([LoopEvent.wait 30000], LoopStatus.exited)

/-- `onFailInitialIndex`: a timeout error emits `source-missing` and enters
the retry loop; any other error emits `source-error` once and never retries. -/
def onFailInitialIndex (e : JsError) (ticks : List Tick) :
    List LoopEvent × LoopStatus :=
  if e.name = "TimeoutError" then
    let r := retryLoop ticks
    (LoopEvent.sourceMissing :: r.1, r.2)
  else ([LoopEvent.sourceError e], LoopStatus.exited)

/-- A retry-loop iteration that keeps the loop going: system open, archive
still managed, and the retried `indexArchive` failed with a timeout. -/
def Tick.keepsLooping (t : Tick) : Prop :=
  t.isOpen = true ∧ t.managed = true ∧
  ∃ e, t.outcome = IndexOutcome.err e ∧ e.name = "TimeoutError"

/-!  Concrete fixtures used by witnesses and counterexamples. -/

/-- A table `foo` owning the single path `/tables/foo/1.json`. -/
def fooTable : Table :=
  { name := "foo", isRecordFile := fun p => p = "/tables/foo/1.json",
    listRecordFiles := fun a => [a.url ++ "/tables/foo/1.json"] }

/-- A db registering only `fooTable`, whose combined file pattern matches
exactly that table's path. -/
def exDB : DB :=
  { tables := [fooTable],
    tableFilePatterns := fun p => p = "/tables/foo/1.json" }

/-- An archive at version 1 whose history puts `/tables/foo/1.json` at
version 1, and whose `readFile` returns parseable content for that path. -/
def exArchive : Archive :=
  { url := "dat://a", version := 1,
    history := [{ path := "/tables/foo/1.json", type := "put", version := 1 }],
    readFile := fun p =>
      if p = "/tables/foo/1.json" then Except.ok "rec1" else Except.error "NotFound" }

/-- The same archive content but reporting current version 0 (Scenario A's
premise). -/
def exArchive0 : Archive :=
  { url := "dat://a", version := 0,
    history := [{ path := "/tables/foo/1.json", type := "put", version := 0 }],
    readFile := fun p =>
      if p = "/tables/foo/1.json" then Except.ok "rec1" else Except.error "NotFound" }

/-- A state already holding an indexed record for `/tables/foo/1.json`. -/
def exStateWithRecord : DBState :=
  { stores := [("foo",
      [("dat://a/tables/foo/1.json",
        { url := "dat://a/tables/foo/1.json", origin := "dat://a",
          indexedAt := 0, record := "rec0" })])] }

/-!  Basic lemmas about the association-list store primitives. -/

theorem alGet_nil {α : Type} (k : String) : alGet ([] : List (String × α)) k = none := rfl

theorem alGet_cons {α : Type} (k1 : String) (v1 : α) (rest : List (String × α))
    (k : String) :
    alGet ((k1, v1) :: rest) k = if k1 = k then some v1 else alGet rest k := rfl

theorem alGet_append_none {α : Type} (m1 m2 : List (String × α)) (k : String)
    (h : alGet m1 k = none) : alGet (m1 ++ m2) k = alGet m2 k := by
  induction m1 with
  | nil => simp
  | cons hd tl ih =>
    obtain ⟨k1, v1⟩ := hd
    rw [alGet_cons] at h
    by_cases hk : k1 = k
    · simp [hk] at h
    · simpa [alGet_cons, hk] using ih (by simpa [hk] using h)

theorem alGet_append_some {α : Type} (m1 m2 : List (String × α)) (k : String)
    (v : α) (h : alGet m1 k = some v) : alGet (m1 ++ m2) k = some v := by
  induction m1 with
  | nil => simp [alGet_nil] at h
  | cons hd tl ih =>
    obtain ⟨k1, v1⟩ := hd
    rw [alGet_cons] at h
    by_cases hk : k1 = k
    · simp [hk] at h
      simp [alGet_cons, hk, h]
    · simpa [alGet_cons, hk] using ih (by simpa [hk] using h)

theorem alGet_map_replace {α : Type} (m : List (String × α)) (k : String)
    (v : α) (h : (alGet m k).isSome = true) :
    alGet (m.map (fun p => if p.1 = k then (k, v) else p)) k = some v := by
  induction m with
  | nil => simp [alGet_nil] at h
  | cons hd tl ih =>
    obtain ⟨k1, v1⟩ := hd
    by_cases hk : k1 = k
    · simp [alGet_cons, hk]
    · rw [alGet_cons] at h
      simpa [alGet_cons, hk] using ih (by simpa [hk] using h)

theorem alGet_upsert_self {α : Type} (m : List (String × α)) (k : String)
    (v : α) : alGet (alUpsert m k v) k = some v := by
  unfold alUpsert
  by_cases h : (alGet m k).isSome
  · simp [h, alGet_map_replace m k v h]
  · have hn : alGet m k = none := by
      cases hg : alGet m k with
      | none => rfl
      | some w => rw [hg] at h; simp at h
    simp only [h, if_false, Bool.false_eq_true]
    rw [alGet_append_none _ _ _ hn, alGet_cons]
    simp

theorem alGet_map_replace_ne {α : Type} (m : List (String × α)) (k k2 : String)
    (v : α) (hne : k2 ≠ k) :
    alGet (m.map (fun p => if p.1 = k then (k, v) else p)) k2 = alGet m k2 := by
  induction m with
  | nil => simp [alGet_nil]
  | cons hd tl ih =>
    obtain ⟨k1, v1⟩ := hd
    by_cases hk : k1 = k
    · have : k ≠ k2 := fun h => hne h.symm
      simp [alGet_cons, hk, this, ih]
    · simp [alGet_cons, hk, ih]

theorem alGet_upsert_ne {α : Type} (m : List (String × α)) (k k2 : String)
    (v : α) (hne : k2 ≠ k) : alGet (alUpsert m k v) k2 = alGet m k2 := by
  unfold alUpsert
  by_cases h : (alGet m k).isSome
  · simp [h, alGet_map_replace_ne m k k2 v hne]
  · simp only [h, if_false, Bool.false_eq_true]
    cases hg : alGet m k2 with
    | none =>
      rw [alGet_append_none _ _ _ hg, alGet_cons]
      have : k ≠ k2 := fun h2 => hne h2.symm
      simp [this, alGet_nil]
    | some w => rw [alGet_append_some _ _ _ _ hg]

theorem alGet_remove_self {α : Type} (m : List (String × α)) (k : String) :
    alGet (alRemove m k) k = none := by
  induction m with
  | nil => rfl
  | cons hd tl ih =>
    obtain ⟨k1, v1⟩ := hd
    by_cases hk : k1 = k
    · simpa [alRemove, hk] using ih
    · simpa [alRemove, alGet_cons, hk] using ih

theorem alGet_remove_ne {α : Type} (m : List (String × α)) (k k2 : String)
    (hne : k2 ≠ k) : alGet (alRemove m k) k2 = alGet m k2 := by
  induction m with
  | nil => rfl
  | cons hd tl ih =>
    obtain ⟨k1, v1⟩ := hd
    by_cases hk : k1 = k
    · have h12 : k1 ≠ k2 := by rw [hk]; exact fun h2 => hne h2.symm
      have hstep : alRemove ((k1, v1) :: tl) k = alRemove tl k := by
        simp [alRemove, hk]
      rw [hstep, ih, alGet_cons]
      simp [h12]
    · have hstep : alRemove ((k1, v1) :: tl) k = (k1, v1) :: alRemove tl k := by
        simp [alRemove, hk]
      rw [hstep, alGet_cons, alGet_cons, ih]

/-!  Rewriting lemmas for the store primitives and for each control path of
the dispatcher (`readAndIndexFileInner`). -/

theorem tablePut_eq_ok (st : DBState) (t : Table) (key : String)
    (v : StoredRecord) (h : t.levelFail key = none) :
    st.tablePut t key v = Except.ok { st with
      stores := alUpsert st.stores t.name
        (alUpsert ((alGet st.stores t.name).getD []) key v),
      log := st.log ++ [StoreOp.tPut t.name key v] } := by
  simp [DBState.tablePut, h]

theorem tablePut_eq_error (st : DBState) (t : Table) (key : String)
    (v : StoredRecord) (e : Err) (h : t.levelFail key = some e) :
    st.tablePut t key v = Except.error e := by
  simp [DBState.tablePut, h]

theorem tableDel_eq_ok (st : DBState) (t : Table) (key : String)
    (h : t.levelFail key = none) :
    st.tableDel t key = Except.ok { st with
      stores := alUpsert st.stores t.name
        (alRemove ((alGet st.stores t.name).getD []) key),
      log := st.log ++ [StoreOp.tDel t.name key] } := by
  simp [DBState.tableDel, h]

theorem tableDel_eq_error (st : DBState) (t : Table) (key : String) (e : Err)
    (h : t.levelFail key = some e) : st.tableDel t key = Except.error e := by
  simp [DBState.tableDel, h]

theorem rifi_read_error (db : DB) (archive : Archive) (now : Nat) (p : String)
    (st : DBState) (e : Err) (h : archive.readFile p = Except.error e) :
    readAndIndexFileInner db archive now p st = Except.error e := by
  simp [readAndIndexFileInner, h]

theorem rifi_parse_error (db : DB) (archive : Archive) (now : Nat) (p : String)
    (st : DBState) (raw : String) (e : Err)
    (hread : archive.readFile p = Except.ok raw)
    (hparse : db.parse raw = Except.error e) :
    readAndIndexFileInner db archive now p st = Except.error e := by
  simp [readAndIndexFileInner, hread, hparse]

theorem rifi_no_table (db : DB) (archive : Archive) (now : Nat) (p : String)
    (st : DBState) (raw : String) (record : Rec)
    (hread : archive.readFile p = Except.ok raw)
    (hparse : db.parse raw = Except.ok record)
    (hfind : db.tables.find? (fun t => t.isRecordFile p) = none) :
    readAndIndexFileInner db archive now p st = Except.ok (st, none) := by
  simp [readAndIndexFileInner, hread, hparse, hfind]

theorem rifi_val_error (db : DB) (archive : Archive) (now : Nat) (p : String)
    (st : DBState) (raw : String) (record : Rec) (table : Table) (e : Err)
    (hread : archive.readFile p = Except.ok raw)
    (hparse : db.parse raw = Except.ok record)
    (hfind : db.tables.find? (fun t => t.isRecordFile p) = some table)
    (hval : (match table.validator with
             | none => Except.ok true
             | some v => v record) = Except.error e) :
    readAndIndexFileInner db archive now p st = Except.error e := by
  simp [readAndIndexFileInner, hread, hparse, hfind, hval]

theorem rifi_del_path (db : DB) (archive : Archive) (now : Nat) (p : String)
    (st : DBState) (raw : String) (record : Rec) (table : Table)
    (hread : archive.readFile p = Except.ok raw)
    (hparse : db.parse raw = Except.ok record)
    (hfind : db.tables.find? (fun t => t.isRecordFile p) = some table)
    (hval : (match table.validator with
             | none => Except.ok true
             | some v => v record) = Except.ok false) :
    readAndIndexFileInner db archive now p st =
      match st.tableDel table (archive.url ++ p) with
      | Except.error e => Except.error e
      | Except.ok st2 => Except.ok (st2, some table.name) := by
  simp [readAndIndexFileInner, hread, hparse, hfind, hval]

theorem rifi_pre_error (db : DB) (archive : Archive) (now : Nat) (p : String)
    (st : DBState) (raw : String) (record : Rec) (table : Table) (e : Err)
    (hread : archive.readFile p = Except.ok raw)
    (hparse : db.parse raw = Except.ok record)
    (hfind : db.tables.find? (fun t => t.isRecordFile p) = some table)
    (hval : (match table.validator with
             | none => Except.ok true
             | some v => v record) = Except.ok true)
    (hpre : (match table.preprocess with
             | none => Except.ok record
             | some pp =>
               match pp record with
               | Except.error e2 => Except.error e2
               | Except.ok newRecord => Except.ok (newRecord.getD record)) =
            (Except.error e : Except Err Rec)) :
    readAndIndexFileInner db archive now p st = Except.error e := by
  simp [readAndIndexFileInner, hread, hparse, hfind, hval, hpre]

theorem rifi_put_path (db : DB) (archive : Archive) (now : Nat) (p : String)
    (st : DBState) (raw : String) (record record2 : Rec) (table : Table)
    (hread : archive.readFile p = Except.ok raw)
    (hparse : db.parse raw = Except.ok record)
    (hfind : db.tables.find? (fun t => t.isRecordFile p) = some table)
    (hval : (match table.validator with
             | none => Except.ok true
             | some v => v record) = Except.ok true)
    (hpre : (match table.preprocess with
             | none => Except.ok record
             | some pp =>
               match pp record with
               | Except.error e2 => Except.error e2
               | Except.ok newRecord => Except.ok (newRecord.getD record)) =
            (Except.ok record2 : Except Err Rec)) :
    readAndIndexFileInner db archive now p st =
      match st.tablePut table (archive.url ++ p)
          { url := archive.url ++ p, origin := archive.url,
            indexedAt := now, record := record2 } with
      | Except.error e => Except.error e
      | Except.ok st2 => Except.ok (st2, some table.name) := by
  simp [readAndIndexFileInner, hread, hparse, hfind, hval, hpre]

/-!  Frame properties: the dispatcher and update application only write table
stores (never the meta store, the managed-archive map, or the watcher set). -/

/-- `st2` differs from `st` only in table stores: meta store, archive map and
watcher set untouched, and the log only grew by table-store operations. -/
def TableOpsOnly (st st2 : DBState) : Prop :=
  st2.indexMeta = st.indexMeta ∧ st2.archives = st.archives ∧
  st2.watched = st.watched ∧
  ∃ ops, st2.log = st.log ++ ops ∧ ∀ o ∈ ops, o.isTableOp = true

theorem tableOpsOnly_refl (st : DBState) : TableOpsOnly st st :=
  ⟨rfl, rfl, rfl, [], by simp, by simp⟩

theorem tableOpsOnly_trans {a b c : DBState} (h1 : TableOpsOnly a b)
    (h2 : TableOpsOnly b c) : TableOpsOnly a c := by
  obtain ⟨m1, a1, w1, ops1, l1, t1⟩ := h1
  obtain ⟨m2, a2, w2, ops2, l2, t2⟩ := h2
  refine ⟨m2.trans m1, a2.trans a1, w2.trans w1, ops1 ++ ops2, ?_, ?_⟩
  · rw [l2, l1, List.append_assoc]
  · intro o ho
    rcases List.mem_append.mp ho with h | h
    · exact t1 o h
    · exact t2 o h

theorem rifi_frame (db : DB) (archive : Archive) (now : Nat) (p : String)
    (st st2 : DBState) (r : Option String)
    (h : readAndIndexFileInner db archive now p st = Except.ok (st2, r)) :
    TableOpsOnly st st2 := by
  cases hread : archive.readFile p with
  | error e => rw [rifi_read_error _ _ _ _ _ _ hread] at h; simp at h
  | ok raw =>
    cases hparse : db.parse raw with
    | error e => rw [rifi_parse_error _ _ _ _ _ _ _ hread hparse] at h; simp at h
    | ok record =>
      cases hfind : db.tables.find? (fun t => t.isRecordFile p) with
      | none =>
        rw [rifi_no_table _ _ _ _ _ _ _ hread hparse hfind] at h
        obtain ⟨h1, _⟩ := Prod.mk.injEq .. ▸ (Except.ok.injEq .. ▸ h)
        exact h1 ▸ tableOpsOnly_refl st
      | some table =>
        cases hval : (match table.validator with
                      | none => Except.ok true
                      | some v => v record) with
        | error e =>
          rw [rifi_val_error _ _ _ _ _ _ _ _ _ hread hparse hfind hval] at h
          simp at h
        | ok b =>
          cases b with
          | false =>
            rw [rifi_del_path _ _ _ _ _ _ _ _ hread hparse hfind hval] at h
            cases hfail : table.levelFail (archive.url ++ p) with
            | some e => rw [tableDel_eq_error _ _ _ _ hfail] at h; simp at h
            | none =>
              rw [tableDel_eq_ok _ _ _ hfail] at h
              obtain ⟨h1, _⟩ := Prod.mk.injEq .. ▸ (Except.ok.injEq .. ▸ h)
              refine h1 ▸ ⟨rfl, rfl, rfl, [StoreOp.tDel table.name (archive.url ++ p)], rfl, ?_⟩
              simp [StoreOp.isTableOp]
          | true =>
            cases hpre : (match table.preprocess with
                          | none => Except.ok record
                          | some pp =>
                            match pp record with
                            | Except.error e2 => Except.error e2
                            | Except.ok newRecord =>
                              Except.ok (newRecord.getD record)) with
            | error e =>
              rw [rifi_pre_error _ _ _ _ _ _ _ _ _ hread hparse hfind hval hpre] at h
              simp at h
            | ok record2 =>
              rw [rifi_put_path _ _ _ _ _ _ _ _ _ hread hparse hfind hval hpre] at h
              cases hfail : table.levelFail (archive.url ++ p) with
              | some e => rw [tablePut_eq_error _ _ _ _ _ hfail] at h; simp at h
              | none =>
                rw [tablePut_eq_ok _ _ _ _ hfail] at h
                obtain ⟨h1, _⟩ := Prod.mk.injEq .. ▸ (Except.ok.injEq .. ▸ h)
                refine h1 ▸ ⟨rfl, rfl, rfl,
                  [StoreOp.tPut table.name (archive.url ++ p)
                    { url := archive.url ++ p, origin := archive.url,
                      indexedAt := now, record := record2 }], rfl, ?_⟩
                simp [StoreOp.isTableOp]

theorem readAndIndexFile_frame (db : DB) (archive am : Archive) (now : Nat)
    (p : String) (st : DBState) :
    TableOpsOnly st (readAndIndexFile db archive am now p st).1 := by
  unfold readAndIndexFile
  cases h : readAndIndexFileInner db archive now p st with
  | error e => exact tableOpsOnly_refl st
  | ok pr =>
    obtain ⟨st2, r⟩ := pr
    exact rifi_frame db archive now p st st2 r h

theorem uifi_frame (db : DB) (archive : Archive) (p : String)
    (st st2 : DBState) (r : Option String)
    (h : unindexFileInner db archive p st = Except.ok (st2, r)) :
    TableOpsOnly st st2 := by
  cases hfind : db.tables.find? (fun t => t.isRecordFile p) with
  | none =>
    simp only [unindexFileInner, hfind] at h
    obtain ⟨h1, _⟩ := Prod.mk.injEq .. ▸ (Except.ok.injEq .. ▸ h)
    exact h1 ▸ tableOpsOnly_refl st
  | some table =>
    simp only [unindexFileInner, hfind] at h
    cases hfail : table.levelFail (archive.url ++ p) with
    | some e => rw [tableDel_eq_error _ _ _ _ hfail] at h; simp at h
    | none =>
      rw [tableDel_eq_ok _ _ _ hfail] at h
      obtain ⟨h1, _⟩ := Prod.mk.injEq .. ▸ (Except.ok.injEq .. ▸ h)
      refine h1 ▸ ⟨rfl, rfl, rfl, [StoreOp.tDel table.name (archive.url ++ p)], rfl, ?_⟩
      simp [StoreOp.isTableOp]

theorem unindexFile_frame (db : DB) (archive : Archive) (p : String)
    (st : DBState) : TableOpsOnly st (unindexFile db archive p st).1 := by
  unfold unindexFile
  cases h : unindexFileInner db archive p st with
  | error e => exact tableOpsOnly_refl st
  | ok pr =>
    obtain ⟨st2, r⟩ := pr
    exact uifi_frame db archive p st st2 r h

theorem applyUpdate_frame (db : DB) (archive am : Archive) (now : Nat)
    (u : Update) (st : DBState) :
    TableOpsOnly st (applyUpdate db archive am now u st).1 := by
  unfold applyUpdate
  by_cases h : u.type = "del"
  · simpa [h] using unindexFile_frame db archive u.path st
  · simpa [h] using readAndIndexFile_frame db archive am now u.path st

theorem applyUpdates_frame (db : DB) (archive am : Archive) (now : Nat)
    (updates : List (String × Update)) (st : DBState) :
    TableOpsOnly st (applyUpdates db archive am now updates st).1 := by
  induction updates generalizing st with
  | nil => exact tableOpsOnly_refl st
  | cons hd tl ih =>
    obtain ⟨k, u⟩ := hd
    exact tableOpsOnly_trans (applyUpdate_frame db archive am now u st)
      (ih (applyUpdate db archive am now u st).1)

/-!  Case lemmas for `indexArchive`, and the watermark effect of the meta
update. -/

theorem metaUpdate_wm (st : DBState) (url : String) (version : Nat) :
    wmOf (metaUpdate st url version) url = version := by
  simp [metaUpdate, wmOf, alGet_upsert_self]

theorem metaUpdate_wm_ne (st : DBState) (url url2 : String) (version : Nat)
    (h : url2 ≠ url) : wmOf (metaUpdate st url version) url2 = wmOf st url2 := by
  simp [metaUpdate, wmOf, alGet_upsert_ne _ _ _ _ h]

theorem indexArchive_closed (db : DB) (archive : Archive) (now : Nat)
    (st : DBState) (h : ¬db.isOpen ∧ ¬db.isBeingOpened) :
    indexArchive db archive now st = (st, []) := by
  simp only [indexArchive, if_pos h]

theorem indexArchive_noLevel (db : DB) (archive : Archive) (now : Nat)
    (st : DBState) (h : ¬db.hasLevel) :
    indexArchive db archive now st = (st, []) := by
  unfold indexArchive
  by_cases h1 : ¬db.isOpen ∧ ¬db.isBeingOpened
  · rw [if_pos h1]
  · rw [if_neg h1, if_pos h]

theorem indexArchive_fast (db : DB) (archive : Archive) (now : Nat)
    (st : DBState) (h : archive.version ≤ wmOf st archive.url) :
    indexArchive db archive now st = (st, []) := by
  unfold indexArchive
  by_cases h1 : ¬db.isOpen ∧ ¬db.isBeingOpened
  · rw [if_pos h1]
  · rw [if_neg h1]
    by_cases h2 : ¬db.hasLevel
    · rw [if_pos h2]
    · rw [if_neg h2, if_pos h]

theorem indexArchive_main (db : DB) (archive : Archive) (now : Nat)
    (st : DBState) (h1 : ¬(¬db.isOpen ∧ ¬db.isBeingOpened))
    (h2 : db.hasLevel) (h3 : wmOf st archive.url < archive.version) :
    indexArchive db archive now st =
      (let r := applyUpdates db archive archive now
        (scanArchiveHistoryForUpdates db archive
          (wmOf st archive.url + 1) (archive.version + 1)) st
       (metaUpdate r.1 archive.url archive.version,
        r.2.1
          ++ (dedupAcc [] r.2.2).map
            (fun n => Signal.indexUpdated n archive.url archive.version)
          ++ [Signal.indexesUpdated archive.url archive.version])) := by
  unfold indexArchive
  rw [if_neg h1, if_neg (by simpa using h2), if_neg (by omega)]

theorem indexArchive_wm_main (db : DB) (archive : Archive) (now : Nat)
    (st : DBState) (h1 : ¬(¬db.isOpen ∧ ¬db.isBeingOpened))
    (h2 : db.hasLevel) (h3 : wmOf st archive.url < archive.version) :
    wmOf (indexArchive db archive now st).1 archive.url = archive.version := by
  rw [indexArchive_main db archive now st h1 h2 h3]
  exact metaUpdate_wm _ _ _

/-- C2: when the stored watermark is at least the archive's current version,
`indexArchive` returns immediately: the state (stores, meta, log — hence no
store writes, watermark unchanged) is untouched and no signal is emitted; in
particular a second `indexArchive` call right after a first one, with no
intervening archive change, is such a redundant pass and is a complete no-op. -/
theorem C2_indexArchive_idempotent :
    (∀ (db : DB) (archive : Archive) (now : Nat) (st : DBState),
      archive.version ≤ wmOf st archive.url →
      indexArchive db archive now st = (st, [])) ∧
    (∀ (db : DB) (archive : Archive) (now1 now2 : Nat) (st : DBState),
      indexArchive db archive now2 (indexArchive db archive now1 st).1 =
        ((indexArchive db archive now1 st).1, [])) := by
  constructor
  · intro db archive now st h
    exact indexArchive_fast db archive now st h
  · intro db archive now1 now2 st
    by_cases h1 : ¬db.isOpen ∧ ¬db.isBeingOpened
    · rw [indexArchive_closed db archive now1 st h1]
      exact indexArchive_closed db archive now2 st h1
    · by_cases h2 : db.hasLevel
      · by_cases h3 : archive.version ≤ wmOf st archive.url
        · rw [indexArchive_fast db archive now1 st h3]
          exact indexArchive_fast db archive now2 st h3
        · have hwm : wmOf (indexArchive db archive now1 st).1 archive.url =
              archive.version :=
            indexArchive_wm_main db archive now1 st h1 h2 (by omega)
          exact indexArchive_fast db archive now2 _ (by omega)
      · rw [indexArchive_noLevel db archive now1 st h2]
        exact indexArchive_noLevel db archive now2 st h2

/-- C2 witness: a concrete redundant pass (watermark 0, archive version 0) is
a no-op. -/
theorem C2_witness :
    indexArchive exDB exArchive0 5 {} = ({}, []) :=
  C2_indexArchive_idempotent.1 exDB exArchive0 5 {} (by decide)

/-- C3 counterexample: an update carrying the spec contract's delete type
spelled `"delete"` is not routed to deletion — the dispatcher only recognises
the literal `'del'` — so applying it to a state holding a record at the key
leaves a (freshly overwritten) record there instead of deleting it. -/
theorem C3_counterexample :
    ((applyUpdate exDB exArchive exArchive 7
        { path := "/tables/foo/1.json", type := "delete", version := 1 }
        exStateWithRecord).1).getRecord "foo" "dat://a/tables/foo/1.json" =
      some { url := "dat://a/tables/foo/1.json", origin := "dat://a",
             indexedAt := 7, record := "rec1" } := by decide

/-- C3 (amended): an update is routed to `unindexFile` exactly when its type
is the literal string `'del'` (the delete type actually produced by the
archive's history, not the spec's `delete` spelling); `unindexFile` then
deletes the stored record at `archiveURL + path` from the first matching
table and returns that table's name; every update of any other type is
applied via `readAndIndexFile`. -/
theorem C3_delete_dispatch :
    ∀ (db : DB) (archive am : Archive) (now : Nat) (u : Update) (st : DBState),
      (u.type = "del" →
        applyUpdate db archive am now u st =
          ((unindexFile db archive u.path st).1, [],
           (unindexFile db archive u.path st).2)) ∧
      (u.type ≠ "del" →
        applyUpdate db archive am now u st =
          readAndIndexFile db archive am now u.path st) ∧
      (∀ t : Table, u.type = "del" →
        db.tables.find? (fun tb => tb.isRecordFile u.path) = some t →
        t.levelFail (archive.url ++ u.path) = none →
        ((applyUpdate db archive am now u st).1).getRecord t.name
            (archive.url ++ u.path) = none ∧
        (applyUpdate db archive am now u st).2.2 = some t.name) := by
  intro db archive am now u st
  refine ⟨fun h => by simp [applyUpdate, h], fun h => by simp [applyUpdate, h], ?_⟩
  intro t hdel hfind hfail
  simp only [applyUpdate, hdel, if_pos rfl]
  have : unindexFile db archive u.path st =
      ({ st with
        stores := alUpsert st.stores t.name
          (alRemove ((alGet st.stores t.name).getD []) (archive.url ++ u.path)),
        log := st.log ++ [StoreOp.tDel t.name (archive.url ++ u.path)] },
       some t.name) := by
    simp only [unindexFile, unindexFileInner, hfind, tableDel_eq_ok _ _ _ hfail]
  rw [this]
  constructor
  · simp [DBState.getRecord, alGet_upsert_self, alGet_remove_self]
  · rfl

/-- C3 witness: a concrete `'del'`-typed update deletes the stored record
from table `foo` and reports `foo` as touched. -/
theorem C3_witness :
    ((applyUpdate exDB exArchive exArchive 7
        { path := "/tables/foo/1.json", type := "del", version := 1 }
        exStateWithRecord).1).getRecord "foo" "dat://a/tables/foo/1.json" = none ∧
    (applyUpdate exDB exArchive exArchive 7
        { path := "/tables/foo/1.json", type := "del", version := 1 }
        exStateWithRecord).2.2 = some "foo" :=
  (C3_delete_dispatch exDB exArchive exArchive 7
      { path := "/tables/foo/1.json", type := "del", version := 1 }
      exStateWithRecord).2.2 fooTable rfl rfl rfl

/-- C6: a read or parse failure is caught inside `readAndIndexFile`: exactly
one `index-error` signal carrying the failing file's url and the error is
emitted, the state is untouched, and `false` (here `none`) is returned; and
applying a batch decomposes file-by-file, so one file's failure never
prevents the remaining files of the batch from being processed. -/
theorem C6_failure_isolation :
    (∀ (db : DB) (archive am : Archive) (now : Nat) (p : String)
        (st : DBState) (e : Err),
      archive.readFile p = Except.error e →
      readAndIndexFile db archive am now p st =
        (st, [Signal.indexError (archive.url ++ p) e], none)) ∧
    (∀ (db : DB) (archive am : Archive) (now : Nat) (p : String)
        (st : DBState) (raw : String) (e : Err),
      archive.readFile p = Except.ok raw → db.parse raw = Except.error e →
      readAndIndexFile db archive am now p st =
        (st, [Signal.indexError (archive.url ++ p) e], none)) ∧
    (∀ (db : DB) (archive am : Archive) (now : Nat)
        (us vs : List (String × Update)) (st : DBState),
      applyUpdates db archive am now (us ++ vs) st =
        ((applyUpdates db archive am now vs
            (applyUpdates db archive am now us st).1).1,
         (applyUpdates db archive am now us st).2.1 ++
           (applyUpdates db archive am now vs
             (applyUpdates db archive am now us st).1).2.1,
         (applyUpdates db archive am now us st).2.2 ++
           (applyUpdates db archive am now vs
             (applyUpdates db archive am now us st).1).2.2)) := by
  refine ⟨?_, ?_, ?_⟩
  · intro db archive am now p st e h
    simp [readAndIndexFile, rifi_read_error _ _ _ _ _ _ h]
  · intro db archive am now p st raw e hread hparse
    simp [readAndIndexFile, rifi_parse_error _ _ _ _ _ _ _ hread hparse]
  · intro db archive am now us vs st
    induction us generalizing st with
    | nil => simp [applyUpdates]
    | cons hd tl ih =>
      obtain ⟨k, u⟩ := hd
      simp [applyUpdates, ih]

/-- C6 witness: a concrete failing read emits one `index-error` for that file
and leaves the state untouched. -/
theorem C6_witness :
    readAndIndexFile exDB exArchive exArchive 3 "/other" {} =
      ({}, [Signal.indexError "dat://a/other" "NotFound"], none) :=
  C6_failure_isolation.1 exDB exArchive exArchive 3 "/other" {} "NotFound" rfl

/-!  Lemmas about `unindexArchive`'s bulk deletion. -/

theorem tableDel_ok_inv (st st2 : DBState) (t : Table) (key : String)
    (h : st.tableDel t key = Except.ok st2) :
    t.levelFail key = none ∧
    st2 = { st with
      stores := alUpsert st.stores t.name
        (alRemove ((alGet st.stores t.name).getD []) key),
      log := st.log ++ [StoreOp.tDel t.name key] } := by
  cases hfail : t.levelFail key with
  | some e => rw [tableDel_eq_error _ _ _ _ hfail] at h; simp at h
  | none =>
    rw [tableDel_eq_ok _ _ _ hfail] at h
    exact ⟨rfl, (Except.ok.injEq .. ▸ h).symm⟩

theorem tableDel_ok_absent_self (st st2 : DBState) (t : Table) (key : String)
    (h : st.tableDel t key = Except.ok st2) :
    st2.getRecord t.name key = none := by
  obtain ⟨-, h2⟩ := tableDel_ok_inv st st2 t key h
  subst h2
  simp [DBState.getRecord, alGet_upsert_self, alGet_remove_self]

theorem tableDel_ok_absent_mono (st st2 : DBState) (t : Table)
    (key tn key2 : String) (h : st.tableDel t key = Except.ok st2)
    (habs : st.getRecord tn key2 = none) : st2.getRecord tn key2 = none := by
  obtain ⟨-, h2⟩ := tableDel_ok_inv st st2 t key h
  subst h2
  by_cases hn : tn = t.name
  · subst hn
    by_cases hk : key2 = key
    · subst hk
      simp [DBState.getRecord, alGet_upsert_self, alGet_remove_self]
    · simp only [DBState.getRecord, alGet_upsert_self, Option.getD_some]
      rw [alGet_remove_ne _ _ _ hk]
      simpa [DBState.getRecord] using habs
  · simpa [DBState.getRecord, alGet_upsert_ne _ _ _ _ hn] using habs

theorem tableDel_ok_frame (st st2 : DBState) (t : Table) (key : String)
    (h : st.tableDel t key = Except.ok st2) :
    st2.indexMeta = st.indexMeta ∧ st2.archives = st.archives ∧
    st2.watched = st.watched := by
  obtain ⟨-, h2⟩ := tableDel_ok_inv st st2 t key h
  subst h2
  exact ⟨rfl, rfl, rfl⟩

theorem delAll_absent_mono (l : List (Table × String)) :
    ∀ (st st2 : DBState) (tn key : String),
      delAll l st = Except.ok st2 →
      st.getRecord tn key = none → st2.getRecord tn key = none := by
  induction l with
  | nil =>
    intro st st2 tn key h habs
    simp only [delAll] at h
    cases h
    exact habs
  | cons hd tl ih =>
    intro st st2 tn key h habs
    simp only [delAll] at h
    cases h1 : st.tableDel hd.1 hd.2 with
    | error e => rw [h1] at h; simp at h
    | ok s1 =>
      rw [h1] at h
      exact ih s1 st2 tn key h (tableDel_ok_absent_mono st s1 hd.1 hd.2 tn key h1 habs)

theorem delAll_inv (l : List (Table × String)) :
    ∀ (st st2 : DBState),
      delAll l st = Except.ok st2 →
      (st2.indexMeta = st.indexMeta ∧ st2.archives = st.archives ∧
       st2.watched = st.watched) ∧
      ∀ m ∈ l, st2.getRecord m.1.name m.2 = none := by
  induction l with
  | nil =>
    intro st st2 h
    simp only [delAll] at h
    cases h
    exact ⟨⟨rfl, rfl, rfl⟩, by simp⟩
  | cons hd tl ih =>
    intro st st2 h
    simp only [delAll] at h
    cases h1 : st.tableDel hd.1 hd.2 with
    | error e => rw [h1] at h; simp at h
    | ok s1 =>
      rw [h1] at h
      obtain ⟨⟨hm, ha, hw⟩, habs⟩ := ih s1 st2 h
      obtain ⟨hm1, ha1, hw1⟩ := tableDel_ok_frame st s1 hd.1 hd.2 h1
      refine ⟨⟨hm.trans hm1, ha.trans ha1, hw.trans hw1⟩, ?_⟩
      intro m hmem
      rcases List.mem_cons.mp hmem with hh | hh
      · subst hh
        exact delAll_absent_mono tl s1 st2 m.1.name m.2 h
          (tableDel_ok_absent_self st s1 m.1 m.2 h1)
      · exact habs m hh

/-- C9: a successful `removeArchive` deletes the archive's stored records and
its index-meta entry and detaches its watcher, while the in-memory
managed-archive map `db._archives` is left exactly as it was — so the
resilience loop's membership check is not falsified by `removeArchive` alone. -/
theorem C9_removeArchive_frame :
    ∀ (db : DB) (archive : Archive) (st st2 : DBState),
      removeArchive db archive st = Except.ok st2 →
      st2.archives = st.archives ∧
      alGet st2.indexMeta archive.url = none ∧
      archive.url ∉ st2.watched ∧
      ∀ m ∈ scanArchiveForRecords db archive,
        st2.getRecord m.1.name m.2 = none := by
  intro db archive st st2 h
  unfold removeArchive unindexArchive at h
  cases h1 : delAll (scanArchiveForRecords db archive) st with
  | error e => rw [h1] at h; simp at h
  | ok s1 =>
    rw [h1] at h
    simp only [Except.ok.injEq] at h
    obtain ⟨⟨hm, ha, hw⟩, habs⟩ := delAll_inv _ st s1 h1
    subst h
    refine ⟨ha, ?_, ?_, ?_⟩
    · simp [unwatchArchive, alGet_remove_self]
    · simp [unwatchArchive, List.mem_filter]
    · intro m hmem
      simpa [unwatchArchive, DBState.getRecord] using habs m hmem

/-- The state produced by removing `exArchive` from `exStateWithRecord`. -/
def exRemoved : DBState :=
  { stores := [("foo", [])],
    indexMeta := [], archives := [], watched := [],
    log := [StoreOp.tDel "foo" "dat://a/tables/foo/1.json",
            StoreOp.metaDel "dat://a"] }

/-- C9 witness: removing the concrete archive succeeds, empties its record
and meta entries, detaches the watcher, and preserves the (empty)
managed-archive map. -/
theorem C9_witness :
    exRemoved.archives = exStateWithRecord.archives ∧
    alGet exRemoved.indexMeta exArchive.url = none ∧
    exArchive.url ∉ exRemoved.watched ∧
    ∀ m ∈ scanArchiveForRecords exDB exArchive,
      exRemoved.getRecord m.1.name m.2 = none :=
  C9_removeArchive_frame exDB exArchive exStateWithRecord exRemoved rfl

/-!  Small frame lemmas for the watcher and the initial meta write. -/

theorem watchArchive_stores (db : DB) (a : Archive) (st : DBState) :
    (watchArchive db a st).stores = st.stores := by
  unfold watchArchive
  split <;> rfl

theorem watchArchive_indexMeta (db : DB) (a : Archive) (st : DBState) :
    (watchArchive db a st).indexMeta = st.indexMeta := by
  unfold watchArchive
  split <;> rfl

theorem metaInit_wm (st : DBState) (a : Archive) :
    wmOf (metaInit st a) a.url = 0 := by
  simp [metaInit, wmOf, alGet_upsert_self]

/-- C7 counterexample: adding an archive that reports current version 0 and
contains a valid `/tables/foo/1.json` leaves table `foo` empty — the claim's
"contains exactly one entry" is false, because the freshly written watermark 0
already covers version 0 and the indexing fast path skips all work. -/
theorem C7_counterexample :
    ((addArchive exDB exArchive0 4 {}).1).getRecord "foo"
      "dat://a/tables/foo/1.json" = none := by decide

/-- C7 (amended): after `addArchive` of an archive whose reported current
version is 0, no file is indexed at all — every table store is untouched and
no signal is emitted, because `indexArchive`'s fast path fires on
`watermark 0 ≥ currentVersion 0`; the persisted IndexMeta.version does equal
0 as the claim states. -/
theorem C7_addArchive_version0 :
    ∀ (db : DB) (archive : Archive) (now : Nat) (st : DBState),
      archive.version = 0 →
      (addArchive db archive now st).2 = [] ∧
      ((addArchive db archive now st).1).stores = st.stores ∧
      wmOf (addArchive db archive now st).1 archive.url = 0 := by
  intro db archive now st h0
  have hidx : indexArchive db archive now (metaInit st archive) =
      (metaInit st archive, []) := by
    apply indexArchive_fast
    rw [h0, metaInit_wm]
  refine ⟨?_, ?_, ?_⟩
  · simp only [addArchive, hidx]
  · simp only [addArchive, hidx, watchArchive_stores]
    rfl
  · simp only [addArchive, hidx, wmOf, watchArchive_indexMeta]
    rw [show (metaInit st archive).indexMeta =
      alUpsert st.indexMeta archive.url
        { url := archive.url, version := 0,
          isWritable := archive.isOwner, localPath := archive.localPath } from rfl]
    simp [alGet_upsert_self]

/-- C7 witness: the amended behaviour at the concrete Scenario-A input. -/
theorem C7_witness :
    (addArchive exDB exArchive0 4 {}).2 = [] ∧
    ((addArchive exDB exArchive0 4 {}).1).stores = ({} : DBState).stores ∧
    wmOf (addArchive exDB exArchive0 4 {}).1 exArchive0.url = 0 :=
  C7_addArchive_version0 exDB exArchive0 4 {} rfl

/-!  The catch boundary of the dispatcher, and the shape of its result. -/

theorem readAndIndexFile_of_inner_error (db : DB) (archive am : Archive)
    (now : Nat) (p : String) (st : DBState) (e : Err)
    (h : readAndIndexFileInner db archive now p st = Except.error e) :
    readAndIndexFile db archive am now p st =
      (st, [Signal.indexError (archive.url ++ p) e], none) := by
  simp [readAndIndexFile, h]

theorem readAndIndexFile_of_inner_ok (db : DB) (archive am : Archive)
    (now : Nat) (p : String) (st st2 : DBState) (r : Option String)
    (h : readAndIndexFileInner db archive now p st = Except.ok (st2, r)) :
    readAndIndexFile db archive am now p st = (st2, [], r) := by
  simp [readAndIndexFile, h]

theorem rifi_result_shape (db : DB) (archive : Archive) (now : Nat)
    (p : String) (st st2 : DBState) (r : Option String)
    (h : readAndIndexFileInner db archive now p st = Except.ok (st2, r)) :
    r = none ∨ ∃ t, db.tables.find? (fun tb => tb.isRecordFile p) = some t ∧
      r = some t.name := by
  cases hread : archive.readFile p with
  | error e => rw [rifi_read_error _ _ _ _ _ _ hread] at h; simp at h
  | ok raw =>
    cases hparse : db.parse raw with
    | error e => rw [rifi_parse_error _ _ _ _ _ _ _ hread hparse] at h; simp at h
    | ok record =>
      cases hfind : db.tables.find? (fun t => t.isRecordFile p) with
      | none =>
        rw [rifi_no_table _ _ _ _ _ _ _ hread hparse hfind] at h
        obtain ⟨-, h2⟩ := Prod.mk.injEq .. ▸ (Except.ok.injEq .. ▸ h)
        exact Or.inl h2.symm
      | some table =>
        cases hval : (match table.validator with
                      | none => Except.ok true
                      | some v => v record) with
        | error e =>
          rw [rifi_val_error _ _ _ _ _ _ _ _ _ hread hparse hfind hval] at h
          simp at h
        | ok b =>
          cases b with
          | false =>
            rw [rifi_del_path _ _ _ _ _ _ _ _ hread hparse hfind hval] at h
            cases hfail : table.levelFail (archive.url ++ p) with
            | some e => rw [tableDel_eq_error _ _ _ _ hfail] at h; simp at h
            | none =>
              rw [tableDel_eq_ok _ _ _ hfail] at h
              obtain ⟨-, h2⟩ := Prod.mk.injEq .. ▸ (Except.ok.injEq .. ▸ h)
              exact Or.inr ⟨table, rfl, h2.symm⟩
          | true =>
            cases hpre : (match table.preprocess with
                          | none => Except.ok record
                          | some pp =>
                            match pp record with
                            | Except.error e2 => Except.error e2
                            | Except.ok newRecord =>
                              Except.ok (newRecord.getD record)) with
            | error e =>
              rw [rifi_pre_error _ _ _ _ _ _ _ _ _ hread hparse hfind hval hpre] at h
              simp at h
            | ok record2 =>
              rw [rifi_put_path _ _ _ _ _ _ _ _ _ hread hparse hfind hval hpre] at h
              cases hfail : table.levelFail (archive.url ++ p) with
              | some e => rw [tablePut_eq_error _ _ _ _ _ hfail] at h; simp at h
              | none =>
                rw [tablePut_eq_ok _ _ _ _ hfail] at h
                obtain ⟨-, h2⟩ := Prod.mk.injEq .. ▸ (Except.ok.injEq .. ▸ h)
                exact Or.inr ⟨table, rfl, h2.symm⟩

theorem uifi_result_shape (db : DB) (archive : Archive) (p : String)
    (st st2 : DBState) (r : Option String)
    (h : unindexFileInner db archive p st = Except.ok (st2, r)) :
    r = none ∨ ∃ t, db.tables.find? (fun tb => tb.isRecordFile p) = some t ∧
      r = some t.name := by
  cases hfind : db.tables.find? (fun t => t.isRecordFile p) with
  | none =>
    simp only [unindexFileInner, hfind] at h
    obtain ⟨-, h2⟩ := Prod.mk.injEq .. ▸ (Except.ok.injEq .. ▸ h)
    exact Or.inl h2.symm
  | some table =>
    simp only [unindexFileInner, hfind] at h
    cases hfail : table.levelFail (archive.url ++ p) with
    | some e => rw [tableDel_eq_error _ _ _ _ hfail] at h; simp at h
    | none =>
      rw [tableDel_eq_ok _ _ _ hfail] at h
      obtain ⟨-, h2⟩ := Prod.mk.injEq .. ▸ (Except.ok.injEq .. ▸ h)
      exact Or.inr ⟨table, rfl, h2.symm⟩

/-- C10: `readAndIndexFile` and `unindexFile` are total at the dispatch
boundary.  The returned value is always `false` (`none`) or the name of a
registered table whose predicate matched the path; a path matching no table
yields `false` with no store write, delete, or signal; and an error thrown by
the validator, the preprocessor, or the table store's put/del is caught
inside the function (`readAndIndexFile` reports it as an `index-error`
signal, `unindexFile` merely logs), leaving the state untouched. -/
theorem C10_dispatch_total :
    (∀ (db : DB) (archive am : Archive) (now : Nat) (p : String)
        (st : DBState),
      (readAndIndexFile db archive am now p st).2.2 = none ∨
      ∃ t ∈ db.tables, (readAndIndexFile db archive am now p st).2.2 =
          some t.name ∧ t.isRecordFile p = true) ∧
    (∀ (db : DB) (archive : Archive) (p : String) (st : DBState),
      (unindexFile db archive p st).2 = none ∨
      ∃ t ∈ db.tables, (unindexFile db archive p st).2 = some t.name ∧
        t.isRecordFile p = true) ∧
    (∀ (db : DB) (archive am : Archive) (now : Nat) (p : String)
        (st : DBState) (raw : String) (record : Rec),
      archive.readFile p = Except.ok raw → db.parse raw = Except.ok record →
      db.tables.find? (fun t => t.isRecordFile p) = none →
      readAndIndexFile db archive am now p st = (st, [], none)) ∧
    (∀ (db : DB) (archive : Archive) (p : String) (st : DBState),
      db.tables.find? (fun t => t.isRecordFile p) = none →
      unindexFile db archive p st = (st, none)) ∧
    (∀ (db : DB) (archive am : Archive) (now : Nat) (p : String)
        (st : DBState) (raw : String) (record : Rec) (t : Table)
        (v : Rec → Except Err Bool) (e : Err),
      archive.readFile p = Except.ok raw → db.parse raw = Except.ok record →
      db.tables.find? (fun tb => tb.isRecordFile p) = some t →
      t.validator = some v → v record = Except.error e →
      readAndIndexFile db archive am now p st =
        (st, [Signal.indexError (archive.url ++ p) e], none)) ∧
    (∀ (db : DB) (archive am : Archive) (now : Nat) (p : String)
        (st : DBState) (raw : String) (record : Rec) (t : Table)
        (pp : Rec → Except Err (Option Rec)) (e : Err),
      archive.readFile p = Except.ok raw → db.parse raw = Except.ok record →
      db.tables.find? (fun tb => tb.isRecordFile p) = some t →
      t.validator = none → t.preprocess = some pp →
      pp record = Except.error e →
      readAndIndexFile db archive am now p st =
        (st, [Signal.indexError (archive.url ++ p) e], none)) ∧
    (∀ (db : DB) (archive am : Archive) (now : Nat) (p : String)
        (st : DBState) (raw : String) (record : Rec) (t : Table) (e : Err),
      archive.readFile p = Except.ok raw → db.parse raw = Except.ok record →
      db.tables.find? (fun tb => tb.isRecordFile p) = some t →
      t.validator = none → t.preprocess = none →
      t.levelFail (archive.url ++ p) = some e →
      readAndIndexFile db archive am now p st =
        (st, [Signal.indexError (archive.url ++ p) e], none)) ∧
    (∀ (db : DB) (archive : Archive) (p : String) (st : DBState) (t : Table)
        (e : Err),
      db.tables.find? (fun tb => tb.isRecordFile p) = some t →
      t.levelFail (archive.url ++ p) = some e →
      unindexFile db archive p st = (st, none)) := by
  refine ⟨?_, ?_, ?_, ?_, ?_, ?_, ?_, ?_⟩
  · intro db archive am now p st
    cases h : readAndIndexFileInner db archive now p st with
    | error e => simp [readAndIndexFile_of_inner_error db archive am now p st e h]
    | ok pr =>
      obtain ⟨st2, r⟩ := pr
      rw [readAndIndexFile_of_inner_ok db archive am now p st st2 r h]
      rcases rifi_result_shape db archive now p st st2 r h with h2 | ⟨t, hfind, h2⟩
      · exact Or.inl h2
      · exact Or.inr ⟨t, List.mem_of_find?_eq_some hfind,
          h2, by simpa using List.find?_some hfind⟩
  · intro db archive p st
    cases h : unindexFileInner db archive p st with
    | error e => simp [unindexFile, h]
    | ok pr =>
      obtain ⟨st2, r⟩ := pr
      have : unindexFile db archive p st = (st2, r) := by simp [unindexFile, h]
      rw [this]
      rcases uifi_result_shape db archive p st st2 r h with h2 | ⟨t, hfind, h2⟩
      · exact Or.inl h2
      · exact Or.inr ⟨t, List.mem_of_find?_eq_some hfind,
          h2, by simpa using List.find?_some hfind⟩
  · intro db archive am now p st raw record hread hparse hfind
    rw [readAndIndexFile_of_inner_ok db archive am now p st st none
      (rifi_no_table db archive now p st raw record hread hparse hfind)]
  · intro db archive p st hfind
    simp [unindexFile, unindexFileInner, hfind]
  · intro db archive am now p st raw record t v e hread hparse hfind hv hverr
    have hval : (match t.validator with
                 | none => Except.ok true
                 | some v2 => v2 record) = Except.error e := by
      rw [hv]; exact hverr
    exact readAndIndexFile_of_inner_error db archive am now p st e
      (rifi_val_error db archive now p st raw record t e hread hparse hfind hval)
  · intro db archive am now p st raw record t pp e hread hparse hfind hv hpp hpperr
    have hval : (match t.validator with
                 | none => Except.ok true
                 | some v2 => v2 record) = (Except.ok true : Except Err Bool) := by
      rw [hv]
    have hpre : (match t.preprocess with
                 | none => Except.ok record
                 | some pp2 =>
                   match pp2 record with
                   | Except.error e2 => Except.error e2
                   | Except.ok newRecord => Except.ok (newRecord.getD record)) =
        (Except.error e : Except Err Rec) := by
      simp only [hpp]
      rw [hpperr]
    exact readAndIndexFile_of_inner_error db archive am now p st e
      (rifi_pre_error db archive now p st raw record t e hread hparse hfind hval hpre)
  · intro db archive am now p st raw record t e hread hparse hfind hv hpp hfail
    have hval : (match t.validator with
                 | none => Except.ok true
                 | some v2 => v2 record) = (Except.ok true : Except Err Bool) := by
      rw [hv]
    have hpre : (match t.preprocess with
                 | none => Except.ok record
                 | some pp2 =>
                   match pp2 record with
                   | Except.error e2 => Except.error e2
                   | Except.ok newRecord => Except.ok (newRecord.getD record)) =
        (Except.ok record : Except Err Rec) := by
      rw [hpp]
    have hinner : readAndIndexFileInner db archive now p st = Except.error e := by
      rw [rifi_put_path db archive now p st raw record record t
        hread hparse hfind hval hpre]
      rw [tablePut_eq_error _ _ _ _ _ hfail]
    exact readAndIndexFile_of_inner_error db archive am now p st e hinner
  · intro db archive p st t e hfind hfail
    simp [unindexFile, unindexFileInner, hfind, tableDel_eq_error _ _ _ _ hfail]

/-- C10 witness: a concrete path matching no table yields `false` from
`unindexFile`, with the state untouched. -/
theorem C10_witness :
    unindexFile exDB exArchive "/other" {} = ({}, none) :=
  C10_dispatch_total.2.2.2.1 exDB exArchive "/other" {} rfl

/-- C4: for a file whose record parses and whose path matches a table (and
whose store accepts the operation): when the table's declared validator
rejects the record, the stored entry at `archiveURL + path` is deleted and
the table's name is returned; when it accepts (or no validator is declared),
the record — replaced by the preprocessor's result when one is declared and
returns a defined non-empty value, kept otherwise — is stored at that key as
`{url: archiveURL+path, origin: archiveURL, indexedAt: now, record}` and the
table's name is returned. -/
theorem C4_readAndIndexFile_spec :
    ∀ (db : DB) (archive am : Archive) (now : Nat) (p : String) (st : DBState)
      (raw : String) (record : Rec) (t : Table),
      archive.readFile p = Except.ok raw →
      db.parse raw = Except.ok record →
      db.tables.find? (fun tb => tb.isRecordFile p) = some t →
      t.levelFail (archive.url ++ p) = none →
      (∀ v, t.validator = some v → v record = Except.ok false →
        ((readAndIndexFile db archive am now p st).1).getRecord t.name
            (archive.url ++ p) = none ∧
        (readAndIndexFile db archive am now p st).2.2 = some t.name) ∧
      (∀ record2 : Rec,
        (t.validator = none ∨
         ∃ v, t.validator = some v ∧ v record = Except.ok true) →
        ((t.preprocess = none ∧ record2 = record) ∨
         (∃ pp, t.preprocess = some pp ∧
            (pp record = Except.ok (some record2) ∨
             (pp record = Except.ok none ∧ record2 = record)))) →
        ((readAndIndexFile db archive am now p st).1).getRecord t.name
            (archive.url ++ p) =
          some { url := archive.url ++ p, origin := archive.url,
                 indexedAt := now, record := record2 } ∧
        (readAndIndexFile db archive am now p st).2.2 = some t.name) := by
  intro db archive am now p st raw record t hread hparse hfind hfail
  constructor
  · intro v hv hrej
    have hval : (match t.validator with
                 | none => Except.ok true
                 | some v2 => v2 record) = (Except.ok false : Except Err Bool) := by
      rw [hv]; exact hrej
    have hinner : readAndIndexFileInner db archive now p st =
        Except.ok ({ st with
          stores := alUpsert st.stores t.name
            (alRemove ((alGet st.stores t.name).getD []) (archive.url ++ p)),
          log := st.log ++ [StoreOp.tDel t.name (archive.url ++ p)] },
          some t.name) := by
      rw [rifi_del_path db archive now p st raw record t hread hparse hfind hval]
      rw [tableDel_eq_ok _ _ _ hfail]
    rw [readAndIndexFile_of_inner_ok _ _ _ _ _ _ _ _ hinner]
    exact ⟨by simp [DBState.getRecord, alGet_upsert_self, alGet_remove_self], rfl⟩
  · intro record2 hacc hpp
    have hval : (match t.validator with
                 | none => Except.ok true
                 | some v2 => v2 record) = (Except.ok true : Except Err Bool) := by
      rcases hacc with hnone | ⟨v, hv, hok⟩
      · rw [hnone]
      · rw [hv]; exact hok
    have hpre : (match t.preprocess with
                 | none => Except.ok record
                 | some pp2 =>
                   match pp2 record with
                   | Except.error e2 => Except.error e2
                   | Except.ok newRecord => Except.ok (newRecord.getD record)) =
        (Except.ok record2 : Except Err Rec) := by
      rcases hpp with ⟨hnone, heq⟩ | ⟨pp, hsome, hres⟩
      · rw [hnone, heq]
      · simp only [hsome]
        rcases hres with hdef | ⟨hundef, heq⟩
        · rw [hdef]; rfl
        · rw [hundef, heq]; rfl
    have hinner : readAndIndexFileInner db archive now p st =
        Except.ok ({ st with
          stores := alUpsert st.stores t.name
            (alUpsert ((alGet st.stores t.name).getD []) (archive.url ++ p)
              { url := archive.url ++ p, origin := archive.url,
                indexedAt := now, record := record2 }),
          log := st.log ++ [StoreOp.tPut t.name (archive.url ++ p)
            { url := archive.url ++ p, origin := archive.url,
              indexedAt := now, record := record2 }] },
          some t.name) := by
      rw [rifi_put_path db archive now p st raw record record2 t
        hread hparse hfind hval hpre]
      rw [tablePut_eq_ok _ _ _ _ hfail]
    rw [readAndIndexFile_of_inner_ok _ _ _ _ _ _ _ _ hinner]
    exact ⟨by simp [DBState.getRecord, alGet_upsert_self], rfl⟩

/-- C4 witness: the concrete valid file is stored at its key with the
expected `{url, origin, indexedAt, record}` shape, touching table `foo`. -/
theorem C4_witness :
    ((readAndIndexFile exDB exArchive exArchive 11 "/tables/foo/1.json" {}).1).getRecord
        "foo" ("dat://a" ++ "/tables/foo/1.json") =
      some { url := "dat://a" ++ "/tables/foo/1.json", origin := "dat://a",
             indexedAt := 11, record := "rec1" } ∧
    (readAndIndexFile exDB exArchive exArchive 11 "/tables/foo/1.json" {}).2.2 =
      some "foo" :=
  (C4_readAndIndexFile_spec exDB exArchive exArchive 11 "/tables/foo/1.json"
      {} "rec1" "rec1" fooTable rfl rfl rfl rfl).2 "rec1"
    (Or.inl rfl) (Or.inl ⟨rfl, rfl⟩)

/-- Iterations whose tick keeps the loop going (open, managed, timeout
failure) each contribute exactly one 30-second wait before the loop carries
on. -/
theorem retryLoop_pre (pre ts : List Tick)
    (hpre : ∀ t ∈ pre, t.keepsLooping) :
    retryLoop (pre ++ ts) =
      (List.replicate pre.length (LoopEvent.wait 30000) ++ (retryLoop ts).1,
       (retryLoop ts).2) := by
  induction pre with
  | nil => simp
  | cons hd tl ih =>
    obtain ⟨ho, hm, e, hout, hname⟩ := hpre hd (List.mem_cons_self _ _)
    have hrec := ih (fun t ht => hpre t (List.mem_cons_of_mem _ ht))
    simp [retryLoop, ho, hm, hout, hname, hrec, List.replicate_succ]

/-- C8: on an initial-index failure, a non-timeout error emits one
`source-error` and never retries; a timeout error emits `source-missing`
first and enters the retry loop, which waits 30 seconds on every iteration;
after any run of keep-looping iterations, a wake-up that finds the system
closed or the archive unmanaged exits with no further signal (in particular
no `source-found`), a successful retry emits `source-found` and attaches the
watcher, and a non-timeout retry error stops silently. -/
theorem C8_resilience_loop :
    (∀ (e : JsError) (ticks : List Tick), e.name ≠ "TimeoutError" →
      onFailInitialIndex e ticks =
        ([LoopEvent.sourceError e], LoopStatus.exited)) ∧
    (∀ (e : JsError) (ticks : List Tick), e.name = "TimeoutError" →
      ∃ evs, (onFailInitialIndex e ticks).1 = LoopEvent.sourceMissing :: evs) ∧
    (∀ (e : JsError) (pre : List Tick) (t : Tick) (rest : List Tick),
      e.name = "TimeoutError" → (∀ x ∈ pre, x.keepsLooping) →
      ((!t.isOpen || !t.managed) = true →
        onFailInitialIndex e (pre ++ t :: rest) =
          (LoopEvent.sourceMissing ::
            List.replicate (pre.length + 1) (LoopEvent.wait 30000),
           LoopStatus.exited)) ∧
      (t.isOpen = true → t.managed = true → t.outcome = IndexOutcome.ok →
        onFailInitialIndex e (pre ++ t :: rest) =
          (LoopEvent.sourceMissing ::
            (List.replicate pre.length (LoopEvent.wait 30000) ++
              [LoopEvent.wait 30000, LoopEvent.sourceFound,
               LoopEvent.attachWatcher]),
           LoopStatus.exited)) ∧
      (∀ e2 : JsError, t.isOpen = true → t.managed = true →
        t.outcome = IndexOutcome.err e2 → e2.name ≠ "TimeoutError" →
        onFailInitialIndex e (pre ++ t :: rest) =
          (LoopEvent.sourceMissing ::
            List.replicate (pre.length + 1) (LoopEvent.wait 30000),
           LoopStatus.exited))) := by
  refine ⟨?_, ?_, ?_⟩
  · intro e ticks h
    simp [onFailInitialIndex, h]
  · intro e ticks h
    exact ⟨(retryLoop ticks).1, by simp [onFailInitialIndex, h]⟩
  · intro e pre t rest he hpre
    have hloop := retryLoop_pre pre (t :: rest) hpre
    refine ⟨?_, ?_, ?_⟩
    · intro hcond
      have hstep : retryLoop (t :: rest) =
          ([LoopEvent.wait 30000], LoopStatus.exited) := by
        simp [retryLoop, hcond]
      simp [onFailInitialIndex, he, hloop, hstep, List.replicate_succ,
        ← List.replicate_succ']
    · intro ho hm hok
      have hstep : retryLoop (t :: rest) =
          ([LoopEvent.wait 30000, LoopEvent.sourceFound,
            LoopEvent.attachWatcher], LoopStatus.exited) := by
        simp [retryLoop, ho, hm, hok]
      simp [onFailInitialIndex, he, hloop, hstep]
    · intro e2 ho hm herr hname
      have hstep : retryLoop (t :: rest) =
          ([LoopEvent.wait 30000], LoopStatus.exited) := by
        simp [retryLoop, ho, hm, herr, hname]
      simp [onFailInitialIndex, he, hloop, hstep, List.replicate_succ,
        ← List.replicate_succ']

/-- C8 witness (Scenario E): a timeout on initial indexing emits
`source-missing`; when the archive is removed from management before the next
retry tick, the loop exits after its wait with no further signal — no
`source-found`. -/
theorem C8_witness :
    onFailInitialIndex { name := "TimeoutError" }
        [{ isOpen := true, managed := false, outcome := IndexOutcome.ok }] =
      ([LoopEvent.sourceMissing, LoopEvent.wait 30000], LoopStatus.exited) := by
  have h := (C8_resilience_loop.2.2 { name := "TimeoutError" } []
      { isOpen := true, managed := false, outcome := IndexOutcome.ok } []
      rfl (by simp)).1 (by decide)
  simpa using h

/-!  Key-set lemmas for the scan map, and the main fold invariant of
`scanArchiveHistoryForUpdates`. -/

theorem alGet_eq_none_iff {α : Type} (m : List (String × α)) (k : String) :
    alGet m k = none ↔ k ∉ m.map Prod.fst := by
  induction m with
  | nil => simp [alGet_nil]
  | cons hd tl ih =>
    obtain ⟨k1, v1⟩ := hd
    by_cases hk : k1 = k
    · subst hk
      simp [alGet_cons]
    · have hne : k ≠ k1 := fun h => hk h.symm
      simp [alGet_cons, hk, ih, hne]

theorem alUpsert_keys_nodup {α : Type} (m : List (String × α)) (k : String)
    (v : α) (h : (m.map Prod.fst).Nodup) :
    ((alUpsert m k v).map Prod.fst).Nodup := by
  unfold alUpsert
  by_cases hs : (alGet m k).isSome
  · simp only [hs, if_true]
    have hmap : (m.map (fun p => if p.1 = k then (k, v) else p)).map Prod.fst =
        m.map Prod.fst := by
      rw [List.map_map]
      apply List.map_congr_left
      intro p _
      by_cases hpk : p.1 = k
      · simp [hpk]
      · simp [hpk]
    rw [hmap]
    exact h
  · simp only [hs, if_false, Bool.false_eq_true]
    have hnone : alGet m k = none := by
      cases hg : alGet m k with
      | none => rfl
      | some w => rw [hg] at hs; simp at hs
    have hk : k ∉ m.map Prod.fst := (alGet_eq_none_iff m k).mp hnone
    rw [List.map_append]
    simp [List.nodup_append, h, hk]

theorem scan_go (db : DB) (hs : List Update) :
    ∀ (m : List (String × Update)),
      List.Pairwise (fun u v => u.version ≤ v.version) hs →
      (m.map Prod.fst).Nodup →
      (∀ p u, alGet m p = some u →
        u.path = p ∧ db.tableFilePatterns u.path = true) →
      (∀ u2 ∈ hs, ∀ p u, alGet m p = some u → u.version ≤ u2.version) →
      ((hs.foldl (scanStep db) m).map Prod.fst).Nodup ∧
      (∀ p u, alGet (hs.foldl (scanStep db) m) p = some u →
        u.path = p ∧ db.tableFilePatterns u.path = true ∧
        (u ∈ hs ∨ alGet m p = some u)) ∧
      (∀ p u, alGet m p = some u →
        ∃ u2, alGet (hs.foldl (scanStep db) m) p = some u2 ∧
          u.version ≤ u2.version) ∧
      (∀ p u, alGet (hs.foldl (scanStep db) m) p = some u →
        ∀ u2 ∈ hs, u2.path = p → u2.version ≤ u.version) := by
  induction hs with
  | nil =>
    intro m _ hnodup hpath _
    refine ⟨hnodup, ?_, ?_, ?_⟩
    · intro p u h
      exact ⟨(hpath p u h).1, (hpath p u h).2, Or.inr h⟩
    · intro p u h
      exact ⟨u, h, le_refl _⟩
    · intro p u _ u2 h2
      simp at h2
  | cons hd tl ih =>
    intro m hsort hnodup hpath hbound
    obtain ⟨hhd, htl⟩ := List.pairwise_cons.mp hsort
    rw [List.foldl_cons]
    by_cases hpat : db.tableFilePatterns hd.path
    · have hstep : scanStep db m hd = alUpsert m hd.path hd := by
        simp [scanStep, hpat]
      rw [hstep]
      have hnodup1 : ((alUpsert m hd.path hd).map Prod.fst).Nodup :=
        alUpsert_keys_nodup _ _ _ hnodup
      have hpath1 : ∀ p u, alGet (alUpsert m hd.path hd) p = some u →
          u.path = p ∧ db.tableFilePatterns u.path = true := by
        intro p u h
        by_cases hp : p = hd.path
        · subst hp
          rw [alGet_upsert_self] at h
          cases h
          exact ⟨rfl, hpat⟩
        · rw [alGet_upsert_ne _ _ _ _ hp] at h
          exact hpath p u h
      have hbound1 : ∀ u2 ∈ tl, ∀ p u, alGet (alUpsert m hd.path hd) p = some u →
          u.version ≤ u2.version := by
        intro u2 h2 p u h
        by_cases hp : p = hd.path
        · subst hp
          rw [alGet_upsert_self] at h
          cases h
          exact hhd u2 h2
        · rw [alGet_upsert_ne _ _ _ _ hp] at h
          exact hbound u2 (List.mem_cons_of_mem _ h2) p u h
      obtain ⟨ih1, ih2, ih3, ih4⟩ := ih (alUpsert m hd.path hd) htl hnodup1 hpath1 hbound1
      refine ⟨ih1, ?_, ?_, ?_⟩
      · intro p u h
        obtain ⟨hp, hpatu, hmem⟩ := ih2 p u h
        refine ⟨hp, hpatu, ?_⟩
        rcases hmem with hm | hm
        · exact Or.inl (List.mem_cons_of_mem _ hm)
        · by_cases hp2 : p = hd.path
          · subst hp2
            rw [alGet_upsert_self] at hm
            cases hm
            exact Or.inl (List.mem_cons_self _ _)
          · rw [alGet_upsert_ne _ _ _ _ hp2] at hm
            exact Or.inr hm
      · intro p u h
        by_cases hp : p = hd.path
        · subst hp
          obtain ⟨u2, h2, hle⟩ := ih3 hd.path hd (alGet_upsert_self _ _ _)
          exact ⟨u2, h2, le_trans (hbound hd (List.mem_cons_self _ _) hd.path u h) hle⟩
        · obtain ⟨u2, h2, hle⟩ := ih3 p u (by rw [alGet_upsert_ne _ _ _ _ hp]; exact h)
          exact ⟨u2, h2, hle⟩
      · intro p u h u2 h2 hpth
        rcases List.mem_cons.mp h2 with he | he
        · subst he
          subst hpth
          obtain ⟨u3, h3, hle⟩ := ih3 u2.path u2 (alGet_upsert_self _ _ _)
          rw [h] at h3
          cases Option.some.inj h3
          exact hle
        · exact ih4 p u h u2 he hpth
    · have hstep : scanStep db m hd = m := by
        simp [scanStep, hpat]
      rw [hstep]
      obtain ⟨ih1, ih2, ih3, ih4⟩ :=
        ih m htl hnodup hpath (fun u2 h2 => hbound u2 (List.mem_cons_of_mem _ h2))
      refine ⟨ih1, ?_, ih3, ?_⟩
      · intro p u h
        obtain ⟨hp, hpatu, hmem⟩ := ih2 p u h
        exact ⟨hp, hpatu, hmem.imp (List.mem_cons_of_mem _) id⟩
      · intro p u h u2 h2 hpth
        rcases List.mem_cons.mp h2 with he | he
        · subst he
          obtain ⟨hp, hpatu, -⟩ := ih2 p u h
          have : db.tableFilePatterns u2.path = true := by
            rw [hpth, ← hp]
            exact hpatu
          exact absurd this hpat
        · exact ih4 p u h u2 he hpth

/-- C5: under the archive contract that `history` is ordered by version, the
update set computed by a history scan holds at most one update per path (its
key list has no duplicates); each retained update matches a table file
pattern, lies in the scanned slice, and is the latest change to its path in
the slice; and a pass over `(watermark, currentVersion]` scans exactly
`start = watermark+1`, `end = currentVersion+1` and dispatches exactly the
retained updates — so no superseded intra-range change is ever applied. -/
theorem C5_scan_latest_per_path :
    (∀ (db : DB) (archive : Archive) (start stop : Nat),
      List.Pairwise (fun u v => u.version ≤ v.version) archive.history →
      ((scanArchiveHistoryForUpdates db archive start stop).map Prod.fst).Nodup ∧
      ∀ p u,
        alGet (scanArchiveHistoryForUpdates db archive start stop) p = some u →
        u.path = p ∧ db.tableFilePatterns u.path = true ∧
        u ∈ historySlice archive start stop ∧
        ∀ u2 ∈ historySlice archive start stop, u2.path = p →
          u2.version ≤ u.version) ∧
    (∀ (db : DB) (archive : Archive) (now : Nat) (st : DBState),
      ¬(¬db.isOpen ∧ ¬db.isBeingOpened) → db.hasLevel →
      wmOf st archive.url < archive.version →
      indexArchive db archive now st =
        (let r := applyUpdates db archive archive now
          (scanArchiveHistoryForUpdates db archive
            (wmOf st archive.url + 1) (archive.version + 1)) st
         (metaUpdate r.1 archive.url archive.version,
          r.2.1
            ++ (dedupAcc [] r.2.2).map
              (fun n => Signal.indexUpdated n archive.url archive.version)
            ++ [Signal.indexesUpdated archive.url archive.version]))) := by
  constructor
  · intro db archive start stop hsort
    simp only [scanArchiveHistoryForUpdates]
    have hslice : List.Pairwise (fun u v => u.version ≤ v.version)
        (historySlice archive start stop) :=
      List.Pairwise.sublist (List.filter_sublist _) hsort
    obtain ⟨h1, h2, h3, h4⟩ := scan_go db (historySlice archive start stop) []
      hslice (by simp)
      (by intro p u h; rw [alGet_nil] at h; cases h)
      (by intro u2 _ p u h; rw [alGet_nil] at h; cases h)
    refine ⟨h1, ?_⟩
    intro p u h
    obtain ⟨hp, hpat, hmem⟩ := h2 p u h
    refine ⟨hp, hpat, ?_, fun u2 hm hpth => h4 p u h u2 hm hpth⟩
    rcases hmem with hm | hm
    · exact hm
    · rw [alGet_nil] at hm
      cases hm
  · intro db archive now st h1 h2 h3
    exact indexArchive_main db archive now st h1 h2 h3

/-- An archive whose history changes `/tables/foo/1.json` twice in range. -/
def exArchiveMulti : Archive :=
  { url := "dat://a", version := 2,
    history := [{ path := "/tables/foo/1.json", type := "put", version := 1 },
                { path := "/tables/foo/1.json", type := "put", version := 2 }],
    readFile := fun p =>
      if p = "/tables/foo/1.json" then Except.ok "rec2" else Except.error "NotFound" }

/-- C5 witness: for the concrete two-change history, the scan keys are
duplicate-free and every retained update is the latest change to its path. -/
theorem C5_witness :
    ((scanArchiveHistoryForUpdates exDB exArchiveMulti 1 3).map Prod.fst).Nodup ∧
    ∀ p u,
      alGet (scanArchiveHistoryForUpdates exDB exArchiveMulti 1 3) p = some u →
      u.path = p ∧ exDB.tableFilePatterns u.path = true ∧
      u ∈ historySlice exArchiveMulti 1 3 ∧
      ∀ u2 ∈ historySlice exArchiveMulti 1 3, u2.path = p →
        u2.version ≤ u.version :=
  C5_scan_latest_per_path.1 exDB exArchiveMulti 1 3 (by decide)

/-!  Watermark behaviour of a pass, and sequences of passes. -/

/-- Run a sequence of `indexArchive` passes, each against a snapshot of the
archive (its handle and the wall-clock time of the pass). -/
def runPasses (db : DB) (passes : List (Archive × Nat)) (st : DBState) :
    DBState :=
  match passes with
  | [] => st
  | p :: rest => runPasses db rest (indexArchive db p.1 p.2 st).1

theorem indexArchive_state (db : DB) (a : Archive) (now : Nat) (st : DBState) :
    (indexArchive db a now st).1 = st ∨
    (wmOf st a.url < a.version ∧
     ∃ r1, TableOpsOnly st r1 ∧
       (indexArchive db a now st).1 = metaUpdate r1 a.url a.version) := by
  by_cases h1 : ¬db.isOpen ∧ ¬db.isBeingOpened
  · rw [indexArchive_closed db a now st h1]
    exact Or.inl rfl
  · by_cases h2 : db.hasLevel
    · by_cases h3 : a.version ≤ wmOf st a.url
      · rw [indexArchive_fast db a now st h3]
        exact Or.inl rfl
      · refine Or.inr ⟨by omega, (applyUpdates db a a now
          (scanArchiveHistoryForUpdates db a
            (wmOf st a.url + 1) (a.version + 1)) st).1,
          applyUpdates_frame db a a now _ st, ?_⟩
        rw [indexArchive_main db a now st h1 h2 (by omega)]
    · rw [indexArchive_noLevel db a now st h2]
      exact Or.inl rfl

theorem indexArchive_wm_mono (db : DB) (a : Archive) (now : Nat)
    (st : DBState) :
    wmOf st a.url ≤ wmOf (indexArchive db a now st).1 a.url := by
  rcases indexArchive_state db a now st with h | ⟨hlt, r1, -, heq⟩
  · rw [h]
  · rw [heq, metaUpdate_wm]
    omega

theorem indexArchive_wm_bound (db : DB) (a : Archive) (now : Nat)
    (st : DBState) :
    wmOf (indexArchive db a now st).1 a.url ≤
      max (wmOf st a.url) a.version := by
  rcases indexArchive_state db a now st with h | ⟨-, r1, -, heq⟩
  · rw [h]
    exact le_max_left _ _
  · rw [heq, metaUpdate_wm]
    exact le_max_right _ _

/-- C1: the persisted watermark never decreases across an `indexArchive`
pass and never moves above the archive's current version (so along any
sequence of passes whose snapshots stay at or below the archive's current
version `V`, it is non-decreasing and bounded by `V`); and within one pass
the watermark is written at most once — exactly once when work is done — to
`currentVersion`, and that meta write comes after every per-update
table-store write of the pass. -/
theorem C1_watermark_monotone :
    (∀ (db : DB) (archive : Archive) (now : Nat) (st : DBState),
      wmOf st archive.url ≤ wmOf (indexArchive db archive now st).1 archive.url) ∧
    (∀ (db : DB) (archive : Archive) (now : Nat) (st : DBState),
      wmOf (indexArchive db archive now st).1 archive.url ≤
        max (wmOf st archive.url) archive.version) ∧
    (∀ (db : DB) (archive : Archive) (now : Nat) (st : DBState),
      ∃ ops, ((indexArchive db archive now st).1).log = st.log ++ ops ∧
        ((∀ u v, StoreOp.metaPut u v ∉ ops) ∨
         ∃ tops, ops = tops ++ [StoreOp.metaPut archive.url archive.version] ∧
           ∀ o ∈ tops, o.isTableOp = true)) ∧
    (∀ (db : DB) (archive : Archive) (now : Nat) (st : DBState),
      ¬(¬db.isOpen ∧ ¬db.isBeingOpened) → db.hasLevel →
      wmOf st archive.url < archive.version →
      ∃ tops, ((indexArchive db archive now st).1).log =
          st.log ++ tops ++ [StoreOp.metaPut archive.url archive.version] ∧
        ∀ o ∈ tops, o.isTableOp = true) ∧
    (∀ (db : DB) (url : String) (V : Nat) (passes : List (Archive × Nat))
        (st : DBState),
      (∀ p ∈ passes, p.1.url = url ∧ p.1.version ≤ V) →
      wmOf st url ≤ V →
      wmOf st url ≤ wmOf (runPasses db passes st) url ∧
      wmOf (runPasses db passes st) url ≤ V) := by
  refine ⟨indexArchive_wm_mono, indexArchive_wm_bound, ?_, ?_, ?_⟩
  · intro db archive now st
    rcases indexArchive_state db archive now st with h | ⟨-, r1, hframe, heq⟩
    · refine ⟨[], by rw [h]; simp, Or.inl ?_⟩
      intro u v hmem
      simp at hmem
    · obtain ⟨-, -, -, ops0, hlog, htab⟩ := hframe
      refine ⟨ops0 ++ [StoreOp.metaPut archive.url archive.version], ?_,
        Or.inr ⟨ops0, rfl, htab⟩⟩
      rw [heq]
      show r1.log ++ [StoreOp.metaPut archive.url archive.version] = _
      rw [hlog, List.append_assoc]
  · intro db archive now st h1 h2 h3
    rw [indexArchive_main db archive now st h1 h2 h3]
    obtain ⟨-, -, -, ops0, hlog, htab⟩ := applyUpdates_frame db archive archive now
      (scanArchiveHistoryForUpdates db archive
        (wmOf st archive.url + 1) (archive.version + 1)) st
    refine ⟨ops0, ?_, htab⟩
    show (applyUpdates db archive archive now
        (scanArchiveHistoryForUpdates db archive
          (wmOf st archive.url + 1) (archive.version + 1)) st).1.log ++
        [StoreOp.metaPut archive.url archive.version] = _
    rw [hlog, List.append_assoc]
  · intro db url V passes
    induction passes with
    | nil =>
      intro st _ hwm
      exact ⟨le_refl _, hwm⟩
    | cons p rest ih =>
      intro st hall hwm
      obtain ⟨hurl, hver⟩ := hall p (List.mem_cons_self _ _)
      have hmono : wmOf st url ≤ wmOf (indexArchive db p.1 p.2 st).1 url := by
        rw [← hurl]
        exact indexArchive_wm_mono db p.1 p.2 st
      have hbound : wmOf (indexArchive db p.1 p.2 st).1 url ≤ V := by
        have := indexArchive_wm_bound db p.1 p.2 st
        rw [hurl] at this
        omega
      obtain ⟨h1, h2⟩ := ih (indexArchive db p.1 p.2 st).1
        (fun q hq => hall q (List.mem_cons_of_mem _ hq)) hbound
      exact ⟨le_trans hmono h1, h2⟩

/-- C1 witness: one concrete pass takes the watermark from 0 to 1 — it does
not decrease and stays bounded by the archive's current version 1. -/
theorem C1_witness :
    wmOf ({} : DBState) "dat://a" ≤
      wmOf (runPasses exDB [(exArchive, 7)] {}) "dat://a" ∧
    wmOf (runPasses exDB [(exArchive, 7)] {}) "dat://a" ≤ 1 :=
  C1_watermark_monotone.2.2.2.2 exDB "dat://a" 1 [(exArchive, 7)] {}
    (by
      intro p hp
      have h := List.mem_singleton.mp hp
      subst h
      exact ⟨rfl, le_refl 1⟩)
    (by decide)
